import Mathlib

/-!
Verification of the secret-manager config provider (src/src/gcp-secret-manager).

The embedding models the aggregation pipeline of `fromSecretManager`
(layers.ts): per-spec concurrent fetch with `Effect.option` converting each
failure to an absent outcome, `HashMap.fromIterable` / `HashMap.compact` /
`HashMap.reduce` merging onto the mutable seed `Map` obtained from the
`SecretMap` reference, and the three layer entry points wrapping the result
as a `ConfigProvider`, optionally chained via `ConfigProvider.orElse`.
-/

namespace SecretManagerConfigProvider

/-- Failure of a single secret fetch, as produced by `getSecret` in
GcpSecretManager.ts: the remote call errors, the secret is missing, or the
payload is unreadable. -/
inductive FetchError where
  | notFound : FetchError
  | noPayload : FetchError
  | remoteError : String → FetchError
deriving DecidableEq, Repr

/-- The secret store as seen through `gcpSecretManager.getSecret`: for each
external name, either the latest version payload or a fetch failure. -/
abbrev Store := String → Except FetchError String

/-- The `SecretInput` union of layers.ts: a bare string used as both names,
or an object carrying `nameInSecretManager` and `nameInConfig`. -/
inductive SecretInput where
  | str : String → SecretInput
  | obj : String → String → SecretInput
deriving DecidableEq, Repr

/-- Selector mirroring `typeof secretInput === "string" ? secretInput :
secretInput.nameInConfig` in `fromSecretManager`. -/
def nameInConfig : SecretInput → String
  | SecretInput.str s => s
  | SecretInput.obj _ c => c

/-- Selector mirroring `typeof secretInput === "string" ? secretInput :
secretInput.nameInSecretManager` in `fromSecretManager`. -/
def nameInSecretManager : SecretInput → String
  | SecretInput.str s => s
  | SecretInput.obj n _ => n

/-- Model of `Effect.option`: any failure of the wrapped effect becomes
`none`; success becomes `some`. -/
def effectOption {ε α : Type} : Except ε α → Option α
  | Except.ok a => some a
  | Except.error _ => none

/-- Whether an `Except` value is a failure. -/
def exceptFailed {ε α : Type} : Except ε α → Bool
  | Except.ok _ => false
  | Except.error _ => true

/-- The JavaScript `Map<string, string>` held by the `SecretMap` reference,
modelled as an insertion-ordered association list. -/
abbrev JsMap := List (String × String)

/-- Generic association-list lookup (first binding wins), used for both the
JS `Map` model and the effect `HashMap` model. -/
def alistLookup {α : Type} : List (String × α) → String → Option α
  | [], _ => none
  | (k₁, v) :: rest, k => if k = k₁ then some v else alistLookup rest k

/-- Model of `Map.prototype.get`. -/
def mapGet (m : JsMap) (k : String) : Option String := alistLookup m k

/-- Model of `Map.prototype.set`: update the existing binding in place if
the key is present, otherwise append the new binding. -/
def mapSet (m : JsMap) (k v : String) : JsMap :=
  if (mapGet m k).isSome then
    m.map (fun p => if p.1 = k then (k, v) else p)
  else
    m ++ [(k, v)]

/-- Effect `HashMap` with string keys, modelled as an association list with
no duplicate keys. -/
abbrev HML (α : Type) := List (String × α)

/-- Insertion into the `HashMap` model: the new binding replaces any
existing binding for the same key. -/
def hmSet {α : Type} (m : HML α) (k : String) (v : α) : HML α :=
  (k, v) :: m.filter (fun p => decide (p.1 ≠ k))

/-- Model of `HashMap.fromIterable`: insert the entries in order, so a later
entry with the same key overwrites an earlier one. -/
def hmFromIterable {α : Type} (l : List (String × α)) : HML α :=
  l.foldl (fun m p => hmSet m p.1 p.2) []

/-- Model of `HashMap.compact`: keep the `some` values, unwrapped, and drop
the `none` entries. -/
def hmCompact {α : Type} (m : HML (Option α)) : HML α :=
  m.filterMap (fun p => match p.2 with
    | some v => some (p.1, v)
    | none => none)

/-- Model of `HashMap.reduce zero f` where `f` receives the accumulator, the
value and the key of each entry. -/
def hmReduce {α β : Type} (m : HML α) (z : β) (f : β → α → String → β) : β :=
  m.foldl (fun z p => f z p.2 p.1) z

/-- The per-spec step of the `Effect.forEach` body in `fromSecretManager`:
fetch by `nameInSecretManager`, convert failure to absence with
`Effect.option`, and pair the outcome with `nameInConfig`. -/
def fetchOutcome (store : Store) (s : SecretInput) : String × Option String :=
  (nameInConfig s, effectOption (store (nameInSecretManager s)))

/-- The outcomes of `Effect.forEach … { concurrency: "unbounded" }`:
results are collected positionally, in the order of the input specs. -/
def fetchOutcomes (store : Store) (secrets : List SecretInput) : List (String × Option String) :=
  secrets.map (fetchOutcome store)

/-- The merged map built by `fromSecretManager`: `HashMap.fromIterable` over
the fetch outcomes, `HashMap.compact`, then `HashMap.reduce` starting from
the seed map, inserting each surviving entry with `map.set`. -/
def fromSecretManagerMap (store : Store) (seed : JsMap) (secrets : List SecretInput) : JsMap :=
  hmReduce (hmCompact (hmFromIterable (fetchOutcomes store secrets))) seed
    (fun m v k => mapSet m k v)

/-- Lookup errors of the config layer, mirroring the distinction the spec
draws between a missing key and any other source failure. -/
inductive ConfigError where
  | missingData : String → ConfigError
  | sourceError : String → String → ConfigError
deriving DecidableEq, Repr

/-- A `ConfigProvider` observed through single-key lookups. -/
abbrev ConfigProviderL := String → Except ConfigError String

/-- Model of `ConfigProvider.fromMap`: a key present in the map resolves to
its value; any other key reports missing data. -/
def configFromMap (m : JsMap) : ConfigProviderL := fun k =>
  match mapGet m k with
  | some v => Except.ok v
  | none => Except.error (ConfigError.missingData k)

/-- Model of `ConfigProvider.fromEnv`: lookup in the process environment. -/
def configFromEnv (env : String → Option String) : ConfigProviderL := fun k =>
  match env k with
  | some v => Except.ok v
  | none => Except.error (ConfigError.missingData k)

/-- Model of `ConfigProvider.fromJson` applied to an already-parsed
document, queried by key. -/
def configFromJson (json : String → Option String) : ConfigProviderL := fun k =>
  match json k with
  | some v => Except.ok v
  | none => Except.error (ConfigError.missingData k)

/-- Model of `ConfigProvider.orElse`: try the primary source; on any
failure, not-found included, fall back to the secondary source, whose own
outcome is then surfaced. -/
def configOrElse (p q : ConfigProviderL) : ConfigProviderL := fun k =>
  match p k with
  | Except.ok v => Except.ok v
  | Except.error _ => q k

/-- The provider returned by `fromSecretManager`:
`ConfigProvider.fromMap(secretMapForConfigProvider)`. -/
def fromSecretManager (store : Store) (seed : JsMap) (secrets : List SecretInput) : ConfigProviderL :=
  configFromMap (fromSecretManagerMap store seed secrets)

/-- `layerGcp`: configuration from the secret-derived map only. -/
def layerGcp (store : Store) (seed : JsMap) (secrets : List SecretInput) : ConfigProviderL :=
  fromSecretManager store seed secrets

/-- `layerGcpWithEnvFallback`: the secret-derived provider chained with
`ConfigProvider.fromEnv()` via `ConfigProvider.orElse`. -/
def layerGcpWithEnvFallback (store : Store) (seed : JsMap) (secrets : List SecretInput)
    (env : String → Option String) : ConfigProviderL :=
  configOrElse (fromSecretManager store seed secrets) (configFromEnv env)

/-- `layerGcpWithJsonFallback`: the secret-derived provider chained with
`ConfigProvider.fromJson(json)` via `ConfigProvider.orElse`. -/
def layerGcpWithJsonFallback (store : Store) (seed : JsMap) (secrets : List SecretInput)
    (json : String → Option String) : ConfigProviderL :=
  configOrElse (fromSecretManager store seed secrets) (configFromJson json)

/-! Helper lemmas about the association-list models. -/

/-- Last-binding lookup over a raw entry list: the value of the last entry
carrying the given key, if any. -/
def lastLookup {α : Type} : List (String × α) → String → Option α
  | [], _ => none
  | (k₁, v) :: rest, k =>
    match lastLookup rest k with
    | some w => some w
    | none => if k = k₁ then some v else none

/-- Keys of an association list are pairwise distinct. -/
def keysNodup {α : Type} (m : HML α) : Prop := (m.map Prod.fst).Nodup

theorem alistLookup_eq_none {α : Type} (m : List (String × α)) (k : String)
    (h : k ∉ m.map Prod.fst) : alistLookup m k = none := by
  induction m with
  | nil => rfl
  | cons p rest ih =>
    obtain ⟨a, b⟩ := p
    simp only [List.map_cons, List.mem_cons] at h
    push_neg at h
    simp [alistLookup, h.1, ih h.2]

theorem alistLookup_filter_ne {α : Type} (m : List (String × α)) (k k₁ : String) (h : k ≠ k₁) :
    alistLookup (m.filter (fun p => !decide (p.1 = k₁))) k = alistLookup m k := by
  induction m with
  | nil => rfl
  | cons p rest ih =>
    obtain ⟨a, b⟩ := p
    by_cases ha : a = k₁
    · subst ha
      have hk : ¬ k = a := h
      simp [List.filter_cons, alistLookup, hk, ih]
    · simp [List.filter_cons, alistLookup, ha, ih]

theorem alistLookup_hmSet {α : Type} (m : HML α) (k k₁ : String) (v : α) :
    alistLookup (hmSet m k₁ v) k = if k = k₁ then some v else alistLookup m k := by
  by_cases h : k = k₁
  · simp [hmSet, alistLookup, h]
  · simp only [hmSet, decide_not, alistLookup, if_neg h]
    exact alistLookup_filter_ne m k k₁ h

theorem alistLookup_foldl_hmSet {α : Type} (l : List (String × α)) (m : HML α) (k : String) :
    alistLookup (l.foldl (fun m p => hmSet m p.1 p.2) m) k
      = match lastLookup l k with
        | some w => some w
        | none => alistLookup m k := by
  induction l generalizing m with
  | nil => rfl
  | cons p rest ih =>
    obtain ⟨a, b⟩ := p
    simp only [List.foldl_cons]
    rw [ih]
    cases hl : lastLookup rest k with
    | some w => simp [lastLookup, hl]
    | none =>
      by_cases hk : k = a
      · subst hk
        simp [lastLookup, hl, alistLookup_hmSet]
      · simp [lastLookup, hl, alistLookup_hmSet, hk]

theorem keysNodup_hmSet {α : Type} (m : HML α) (k : String) (v : α) (h : keysNodup m) :
    keysNodup (hmSet m k v) := by
  unfold keysNodup hmSet
  simp only [List.map_cons, List.nodup_cons]
  constructor
  · intro hmem
    simp only [List.mem_map] at hmem
    obtain ⟨p, hp, hk⟩ := hmem
    have hfilter := List.of_mem_filter hp
    simp [hk] at hfilter
  · exact h.sublist ((List.filter_sublist m).map Prod.fst)

theorem keysNodup_foldl_hmSet {α : Type} (l : List (String × α)) (m : HML α) (h : keysNodup m) :
    keysNodup (l.foldl (fun m p => hmSet m p.1 p.2) m) := by
  induction l generalizing m with
  | nil => exact h
  | cons p rest ih => exact ih _ (keysNodup_hmSet _ _ _ h)

theorem keysNodup_hmFromIterable {α : Type} (l : List (String × α)) :
    keysNodup (hmFromIterable l) :=
  keysNodup_foldl_hmSet l [] (by simp [keysNodup])

theorem hmCompact_cons_some {α : Type} (a : String) (v : α) (rest : HML (Option α)) :
    hmCompact ((a, some v) :: rest) = (a, v) :: hmCompact rest := rfl

theorem hmCompact_cons_none {α : Type} (a : String) (rest : HML (Option α)) :
    hmCompact ((a, none) :: rest) = hmCompact rest := rfl

theorem mem_keys_hmCompact {α : Type} (m : HML (Option α)) (a : String)
    (h : a ∈ (hmCompact m).map Prod.fst) : a ∈ m.map Prod.fst := by
  simp only [hmCompact, List.mem_map, List.mem_filterMap] at h
  obtain ⟨q, ⟨p, hp, hq⟩, hfst⟩ := h
  cases hp2 : p.2 with
  | none => rw [hp2] at hq; simp at hq
  | some v =>
    rw [hp2] at hq
    simp only [Option.some.injEq] at hq
    subst hq
    simp only [List.mem_map]
    exact ⟨p, hp, hfst⟩

theorem keysNodup_hmCompact {α : Type} (m : HML (Option α)) (h : keysNodup m) :
    keysNodup (hmCompact m) := by
  induction m with
  | nil => exact h
  | cons p rest ih =>
    obtain ⟨a, o⟩ := p
    have h1 := List.nodup_cons.mp h
    cases o with
    | none => simpa [hmCompact_cons_none] using ih h1.2
    | some v =>
      rw [hmCompact_cons_some]
      simp only [keysNodup, List.map_cons, List.nodup_cons] at *
      exact ⟨fun hmem => h1.1 (mem_keys_hmCompact rest a hmem), ih h1.2⟩

theorem alistLookup_none_hmCompact {α : Type} (m : HML (Option α)) (k : String)
    (h : alistLookup m k = none) : alistLookup (hmCompact m) k = none := by
  induction m with
  | nil => rfl
  | cons p rest ih =>
    obtain ⟨a, o⟩ := p
    by_cases hk : k = a
    · simp [alistLookup, hk] at h
    · simp only [alistLookup, if_neg hk] at h
      cases o with
      | some v =>
        rw [hmCompact_cons_some]
        simp only [alistLookup, if_neg hk]
        exact ih h
      | none =>
        rw [hmCompact_cons_none]
        exact ih h

theorem alistLookup_hmCompact {α : Type} (m : HML (Option α)) (k : String) (h : keysNodup m) :
    alistLookup (hmCompact m) k = Option.join (alistLookup m k) := by
  induction m with
  | nil => rfl
  | cons p rest ih =>
    obtain ⟨a, o⟩ := p
    have h1 := List.nodup_cons.mp h
    cases o with
    | some v =>
      rw [hmCompact_cons_some]
      by_cases hk : k = a
      · simp [alistLookup, hk, Option.join]
      · simp only [alistLookup, if_neg hk]
        exact ih h1.2
    | none =>
      rw [hmCompact_cons_none]
      by_cases hk : k = a
      · subst hk
        have hnone : alistLookup rest k = none := alistLookup_eq_none rest k h1.1
        rw [alistLookup_none_hmCompact rest k hnone]
        simp [alistLookup, Option.join]
      · simp only [alistLookup, if_neg hk]
        exact ih h1.2

theorem alistLookup_append {α : Type} (m l₂ : List (String × α)) (k : String) :
    alistLookup (m ++ l₂) k
      = match alistLookup m k with
        | some w => some w
        | none => alistLookup l₂ k := by
  induction m with
  | nil => rfl
  | cons p rest ih =>
    obtain ⟨a, b⟩ := p
    by_cases hk : k = a <;> simp [alistLookup, hk, ih]

theorem alistLookup_mapUpdate_self (m : JsMap) (k v : String)
    (h : (alistLookup m k).isSome) :
    alistLookup (m.map (fun p => if p.1 = k then (k, v) else p)) k = some v := by
  induction m with
  | nil => simp [alistLookup] at h
  | cons p rest ih =>
    obtain ⟨a, b⟩ := p
    rw [List.map_cons]
    show alistLookup ((if a = k then (k, v) else (a, b)) ::
        rest.map (fun p => if p.1 = k then (k, v) else p)) k = some v
    by_cases ha : a = k
    · rw [if_pos ha]
      simp [alistLookup]
    · rw [if_neg ha]
      have hk : ¬ k = a := fun hh => ha hh.symm
      simp only [alistLookup, if_neg hk] at h ⊢
      exact ih h

theorem alistLookup_mapUpdate_ne (m : JsMap) (k k₁ v : String) (h : k ≠ k₁) :
    alistLookup (m.map (fun p => if p.1 = k₁ then (k₁, v) else p)) k = alistLookup m k := by
  induction m with
  | nil => rfl
  | cons p rest ih =>
    obtain ⟨a, b⟩ := p
    rw [List.map_cons]
    show alistLookup ((if a = k₁ then (k₁, v) else (a, b)) ::
        rest.map (fun p => if p.1 = k₁ then (k₁, v) else p)) k = alistLookup ((a, b) :: rest) k
    by_cases ha : a = k₁
    · rw [if_pos ha]
      subst ha
      simp only [alistLookup, if_neg h]
      exact ih
    · rw [if_neg ha]
      by_cases hk : k = a
      · simp [alistLookup, hk]
      · simp only [alistLookup, if_neg hk]
        exact ih

theorem mapGet_mapSet_self (m : JsMap) (k v : String) : mapGet (mapSet m k v) k = some v := by
  unfold mapSet mapGet
  by_cases h : (alistLookup m k).isSome
  · rw [if_pos h]
    exact alistLookup_mapUpdate_self m k v h
  · rw [if_neg h]
    have hnone : alistLookup m k = none := by
      cases hm : alistLookup m k
      · rfl
      · rw [hm] at h; simp at h
    rw [alistLookup_append]
    simp [hnone, alistLookup]

theorem mapGet_mapSet_ne (m : JsMap) (k k₁ v : String) (h : k ≠ k₁) :
    mapGet (mapSet m k₁ v) k = mapGet m k := by
  unfold mapSet mapGet
  by_cases hs : (alistLookup m k₁).isSome
  · rw [if_pos hs]
    exact alistLookup_mapUpdate_ne m k k₁ v h
  · rw [if_neg hs]
    rw [alistLookup_append]
    cases hm : alistLookup m k <;> simp [hm, alistLookup, h]

theorem mapGet_hmReduce_mapSet (fetched : HML String) (seed : JsMap) (k : String)
    (h : keysNodup fetched) :
    mapGet (hmReduce fetched seed (fun m v k => mapSet m k v)) k
      = match alistLookup fetched k with
        | some v => some v
        | none => mapGet seed k := by
  revert h
  induction fetched generalizing seed with
  | nil => intro h; rfl
  | cons p rest ih =>
    intro h
    obtain ⟨a, v⟩ := p
    have h1 := List.nodup_cons.mp h
    simp only [hmReduce, List.foldl_cons]
    rw [show (rest.foldl (fun z p => mapSet z p.1 p.2) (mapSet seed a v))
        = hmReduce rest (mapSet seed a v) (fun m v k => mapSet m k v) from rfl]
    rw [ih (mapSet seed a v) h1.2]
    by_cases hk : k = a
    · subst hk
      rw [alistLookup_eq_none rest k h1.1]
      simp [alistLookup, mapGet_mapSet_self]
    · simp [alistLookup, hk, mapGet_mapSet_ne _ _ _ _ hk]

/-- Workhorse lemma: a lookup in the aggregated map is the last fetch
outcome for that key when one survived compaction, and the seed binding
otherwise. -/
theorem mapGet_fromSecretManagerMap (store : Store) (seed : JsMap)
    (secrets : List SecretInput) (k : String) :
    mapGet (fromSecretManagerMap store seed secrets) k
      = match Option.join (lastLookup (fetchOutcomes store secrets) k) with
        | some v => some v
        | none => mapGet seed k := by
  unfold fromSecretManagerMap
  rw [mapGet_hmReduce_mapSet _ _ _ (keysNodup_hmCompact _ (keysNodup_hmFromIterable _))]
  rw [alistLookup_hmCompact _ _ (keysNodup_hmFromIterable _)]
  rw [show hmFromIterable (fetchOutcomes store secrets)
      = (fetchOutcomes store secrets).foldl (fun m p => hmSet m p.1 p.2) [] from rfl]
  rw [alistLookup_foldl_hmSet]
  cases lastLookup (fetchOutcomes store secrets) k <;> simp [alistLookup]

/-! Completion-order model of the unbounded concurrent forEach. Each fetch
is an independent fiber; when it completes it writes its outcome into the
result slot of its own input index, so the collected results are positional
regardless of the order in which the fibers finish. -/

/-- Process fetch completions in the given order: completion of index `i`
writes outcome `i` into slot `i` of the result array. -/
def runCompletions {α : Type} (outcomes : List α) (order : List Nat) : List (Option α) :=
  order.foldl
    (fun slots i =>
      match outcomes[i]? with
      | some v => slots.set i (some v)
      | none => slots)
    (List.replicate outcomes.length none)

/-- The aggregated map when fetch completions arrive in an arbitrary
`order`: the slots are filled by completion, then the settled results flow
into the same fromIterable / compact / reduce pipeline. -/
def fromSecretManagerMapPar (store : Store) (seed : JsMap) (secrets : List SecretInput)
    (order : List Nat) : JsMap :=
  hmReduce
    (hmCompact (hmFromIterable ((runCompletions (fetchOutcomes store secrets) order).filterMap id)))
    seed (fun m v k => mapSet m k v)

theorem completions_foldl_length {α : Type} (order : List Nat) (outcomes : List α)
    (slots : List (Option α)) :
    (order.foldl
      (fun slots i =>
        match outcomes[i]? with
        | some v => slots.set i (some v)
        | none => slots)
      slots).length = slots.length := by
  induction order generalizing slots with
  | nil => rfl
  | cons i rest ih =>
    simp only [List.foldl_cons]
    rw [ih]
    cases outcomes[i]? <;> simp

theorem completions_foldl_getElem_not_mem {α : Type} (order : List Nat) (outcomes : List α)
    (slots : List (Option α)) (j : Nat) (hmem : j ∉ order) :
    (order.foldl
      (fun slots i =>
        match outcomes[i]? with
        | some v => slots.set i (some v)
        | none => slots)
      slots)[j]? = slots[j]? := by
  induction order generalizing slots with
  | nil => rfl
  | cons i rest ih =>
    have hji : j ≠ i := fun h => hmem (h ▸ List.mem_cons_self i rest)
    have hrest : j ∉ rest := fun h => hmem (List.mem_cons_of_mem i h)
    simp only [List.foldl_cons]
    rw [ih _ hrest]
    cases outcomes[i]? with
    | none => rfl
    | some v => exact List.getElem?_set_ne hji.symm

theorem completions_foldl_getElem_mem {α : Type} (order : List Nat) (outcomes : List α)
    (slots : List (Option α)) (j : Nat) (hlen : slots.length = outcomes.length)
    (hj : j < outcomes.length) (hmem : j ∈ order) :
    (order.foldl
      (fun slots i =>
        match outcomes[i]? with
        | some v => slots.set i (some v)
        | none => slots)
      slots)[j]? = (outcomes[j]?).map some := by
  induction order generalizing slots with
  | nil => exact absurd hmem (List.not_mem_nil j)
  | cons i rest ih =>
    simp only [List.foldl_cons]
    by_cases hr : j ∈ rest
    · apply ih
      · rw [← hlen]
        cases outcomes[i]? <;> simp
      · exact hr
    · have hji : j = i := by
        rcases List.mem_cons.mp hmem with h | h
        · exact h
        · exact absurd h hr
      subst hji
      rw [completions_foldl_getElem_not_mem rest outcomes _ j hr]
      rw [List.getElem?_eq_getElem hj]
      have hjs : j < slots.length := hlen ▸ hj
      show (slots.set j (some (outcomes.get ⟨j, hj⟩)))[j]? = Option.map some (some (outcomes.get ⟨j, hj⟩))
      rw [List.getElem?_set_self hjs]
      rfl

theorem runCompletions_eq_map_some {α : Type} (outcomes : List α) (order : List Nat)
    (hcov : ∀ j, j < outcomes.length → j ∈ order) :
    runCompletions outcomes order = outcomes.map some := by
  apply List.ext_getElem?
  intro n
  by_cases hn : n < outcomes.length
  · rw [runCompletions, completions_foldl_getElem_mem order outcomes _ n
      (List.length_replicate _ _) hn (hcov n hn)]
    rw [List.getElem?_map]
  · have h₁ : outcomes.length ≤ n := Nat.le_of_not_lt hn
    rw [List.getElem?_eq_none (l := runCompletions outcomes order)
      (by rw [runCompletions, completions_foldl_length, List.length_replicate]; exact h₁)]
    rw [List.getElem?_eq_none (by simpa using h₁)]

theorem filterMap_id_map_some {α : Type} (l : List α) :
    (l.map some).filterMap id = l := by
  induction l with
  | nil => rfl
  | cons a rest ih => simp [ih]

/-- Completion order does not influence the aggregation: as long as every
fetch eventually settles, the concurrent pipeline produces the same map as
the positional one. -/
theorem fromSecretManagerMapPar_eq (store : Store) (seed : JsMap)
    (secrets : List SecretInput) (order : List Nat)
    (hcov : ∀ j, j < secrets.length → j ∈ order) :
    fromSecretManagerMapPar store seed secrets order = fromSecretManagerMap store seed secrets := by
  unfold fromSecretManagerMapPar fromSecretManagerMap
  rw [runCompletions_eq_map_some _ _ (by simpa [fetchOutcomes] using hcov)]
  rw [filterMap_id_map_some]

/-! State model of the `SecretMap` reference: the `Context.Reference`
(secret-map.ts) holds a mutable JS `Map` object, and the reduce step
performs `map.set(key, value)` directly on it. -/

/-- The mutable cell holding the seed `Map` provided by the `SecretMap`
reference. -/
structure SecretMapRef where
  contents : JsMap
deriving Repr

/-- The aggregation observed together with the final state of the seed map
object: the reduce mutates the map obtained from the `SecretMap` reference
in place and the provider wraps that same map. -/
def fromSecretManagerRef (store : Store) (st : SecretMapRef) (secrets : List SecretInput) :
    ConfigProviderL × SecretMapRef :=
  let merged := hmReduce (hmCompact (hmFromIterable (fetchOutcomes store secrets)))
    st.contents (fun m v k => mapSet m k v)
  (configFromMap merged, SecretMapRef.mk merged)

/-! Scope model for the client lifecycle. -/

/-- Observable actions on the GCP client object. -/
inductive ClientEvent where
  | construct : ClientEvent
  | close : ClientEvent
deriving DecidableEq, BEq, Repr

/-- A resource scope: the events performed so far and the pending
finalizers, last-registered first. -/
structure ScopeState where
  events : List ClientEvent
  finalizers : List ClientEvent
deriving Repr

/-- Modelled from the spec: the library scope construct backing
`Effect.acquireRelease` in GcpSecretManager.ts is not part of this
repository; per the spec, acquisition runs the acquire action and registers
the release action as a scope finalizer. Here the acquire constructs the
client and the registered finalizer is its close operation. -/
def acquireReleaseClient (s : ScopeState) : ScopeState :=
  ScopeState.mk (s.events ++ [ClientEvent.construct]) (ClientEvent.close :: s.finalizers)

/-- Modelled from the spec: closing a scope runs every pending finalizer
exactly once, then discards them. -/
def closeScope (s : ScopeState) : ScopeState :=
  ScopeState.mk (s.events ++ s.finalizers) []

/-- Modelled from the spec: `Layer.unwrapScoped` over the scoped
`GcpSecretManager.Default` service runs the acquisition, then the layer
body, and closes the scope when the layer's lifetime ends on either exit
path, success or error. -/
def runScopedLayer {ε α : Type} (body : Store → Except ε α) (store : Store) :
    Except ε α × ScopeState :=
  let s₁ := acquireReleaseClient (ScopeState.mk [] [])
  match body store with
  | Except.ok a => (Except.ok a, closeScope s₁)
  | Except.error e => (Except.error e, closeScope s₁)

/-- The `layerGcp` composition run inside its scope: the body is the
aggregation, which itself never fails (fetch failures are converted to
absent outcomes). -/
def layerGcpScoped (store : Store) (seed : JsMap) (secrets : List SecretInput) :
    Except ConfigError ConfigProviderL × ScopeState :=
  runScopedLayer (fun st => Except.ok (fromSecretManager st seed secrets)) store

/-! Facts about failed fetches. -/

theorem effectOption_eq_none {ε α : Type} (e : Except ε α) (h : exceptFailed e = true) :
    effectOption e = none := by
  cases e with
  | ok a => simp [exceptFailed] at h
  | error e => rfl

theorem lastLookup_join_none {α : Type} (l : List (String × Option α)) (k : String)
    (h : ∀ p, p ∈ l → p.1 = k → p.2 = none) :
    Option.join (lastLookup l k) = none := by
  induction l with
  | nil => rfl
  | cons p rest ih =>
    obtain ⟨a, o⟩ := p
    have ihr := ih (fun q hq hk => h q (List.mem_cons_of_mem _ hq) hk)
    cases hr : lastLookup rest k with
    | some w =>
      rw [hr] at ihr
      simp only [lastLookup, hr]
      exact ihr
    | none =>
      simp only [lastLookup, hr]
      by_cases hk : k = a
      · have : o = none := h (a, o) (List.mem_cons_self _ _) hk.symm
        simp [hk, this, Option.join]
      · simp [hk, Option.join]

theorem foldl_hmSet_values_none {α : Type} (l : List (String × Option α))
    (m : HML (Option α)) (hl : ∀ p, p ∈ l → p.2 = none) (hm : ∀ p, p ∈ m → p.2 = none) :
    ∀ p, p ∈ l.foldl (fun m p => hmSet m p.1 p.2) m → p.2 = none := by
  induction l generalizing m with
  | nil => exact hm
  | cons q rest ih =>
    simp only [List.foldl_cons]
    apply ih
    · exact fun p hp => hl p (List.mem_cons_of_mem _ hp)
    · intro p hp
      unfold hmSet at hp
      rcases List.mem_cons.mp hp with h | h
      · rw [h]
        exact hl q (List.mem_cons_self _ _)
      · exact hm p (List.mem_of_mem_filter h)

theorem hmCompact_of_values_none {α : Type} (m : HML (Option α))
    (h : ∀ p, p ∈ m → p.2 = none) : hmCompact m = [] := by
  induction m with
  | nil => rfl
  | cons p rest ih =>
    obtain ⟨a, o⟩ := p
    have ho : o = none := h (a, o) (List.mem_cons_self _ _)
    subst ho
    rw [hmCompact_cons_none]
    exact ih (fun q hq => h q (List.mem_cons_of_mem _ hq))

/-- Claim C1: the aggregation step never raises due to an individual fetch
failure. Each failure is converted to an absent outcome locally, other
fetches are unaffected, and the result is always a map: a key all of whose
fetches failed simply resolves to its seed binding, and when every fetch
fails the result is exactly the seed map. -/
theorem claim_C1_aggregation_tolerates_fetch_failures (store : Store) (seed : JsMap)
    (secrets : List SecretInput) (hne : secrets ≠ []) :
    (∀ k, (∀ s, s ∈ secrets → nameInConfig s = k →
        exceptFailed (store (nameInSecretManager s)) = true) →
      mapGet (fromSecretManagerMap store seed secrets) k = mapGet seed k)
    ∧ ((∀ s, s ∈ secrets → exceptFailed (store (nameInSecretManager s)) = true) →
      fromSecretManagerMap store seed secrets = seed) := by
  constructor
  · intro k hfail
    rw [mapGet_fromSecretManagerMap]
    rw [lastLookup_join_none]
    intro p hp hk
    simp only [fetchOutcomes, List.mem_map] at hp
    obtain ⟨s, hs, rfl⟩ := hp
    simp only [fetchOutcome] at hk ⊢
    exact effectOption_eq_none _ (hfail s hs hk)
  · intro hfail
    unfold fromSecretManagerMap
    rw [hmCompact_of_values_none]
    · rfl
    · apply foldl_hmSet_values_none
      · intro p hp
        simp only [fetchOutcomes, List.mem_map] at hp
        obtain ⟨s, hs, rfl⟩ := hp
        exact effectOption_eq_none _ (hfail s hs)
      · intro p hp
        simp at hp

/-- Claim C1 witness: a single failing secret with a non-empty seed yields
exactly the seed map. -/
theorem claim_C1_witness :
    ([SecretInput.str "MISSING"] ≠ ([] : List SecretInput))
    ∧ fromSecretManagerMap (fun _ => Except.error FetchError.notFound) [("seed", "s")]
        [SecretInput.str "MISSING"] = [("seed", "s")] :=
  ⟨by decide,
    (claim_C1_aggregation_tolerates_fetch_failures
      (fun _ => Except.error FetchError.notFound) [("seed", "s")]
      [SecretInput.str "MISSING"] (by decide)).2 (by decide)⟩

/-- Claim C2: merging onto the seed map, a key present in both the fetch
result and the seed resolves to the fetched value, and a key present only
in the seed keeps its seed value. -/
theorem claim_C2_merge_semantics (store : Store) (seed : JsMap)
    (secrets : List SecretInput) (k v w : String) :
    (alistLookup (hmCompact (hmFromIterable (fetchOutcomes store secrets))) k = some v →
      mapGet seed k = some w →
      mapGet (fromSecretManagerMap store seed secrets) k = some v)
    ∧ (alistLookup (hmCompact (hmFromIterable (fetchOutcomes store secrets))) k = none →
      mapGet seed k = some w →
      mapGet (fromSecretManagerMap store seed secrets) k = some w) := by
  constructor
  · intro hf hs
    unfold fromSecretManagerMap
    rw [mapGet_hmReduce_mapSet _ _ _ (keysNodup_hmCompact _ (keysNodup_hmFromIterable _)), hf]
  · intro hf hs
    unfold fromSecretManagerMap
    rw [mapGet_hmReduce_mapSet _ _ _ (keysNodup_hmCompact _ (keysNodup_hmFromIterable _)), hf]
    exact hs

/-- Claim C2 witness: the fetched value overwrites the seed binding of the
same key, and a seed-only key is retained. -/
theorem claim_C2_witness :
    mapGet (fromSecretManagerMap
      (fun n => if n = "K" then Except.ok "newv" else Except.error FetchError.notFound)
      [("K", "oldv"), ("ONLY", "s")] [SecretInput.str "K"]) "K" = some "newv"
    ∧ mapGet (fromSecretManagerMap
      (fun n => if n = "K" then Except.ok "newv" else Except.error FetchError.notFound)
      [("K", "oldv"), ("ONLY", "s")] [SecretInput.str "K"]) "ONLY" = some "s" :=
  ⟨(claim_C2_merge_semantics
      (fun n => if n = "K" then Except.ok "newv" else Except.error FetchError.notFound)
      [("K", "oldv"), ("ONLY", "s")] [SecretInput.str "K"] "K" "newv" "oldv").1
      (by decide) (by decide),
    (claim_C2_merge_semantics
      (fun n => if n = "K" then Except.ok "newv" else Except.error FetchError.notFound)
      [("K", "oldv"), ("ONLY", "s")] [SecretInput.str "K"] "ONLY" "x" "s").2
      (by decide) (by decide)⟩

/-- Claim C3 counterexample: two specs share configKey "k"; the store
yields "a" for the first spec and "b" for the second. With completion order
[1, 0] the first spec's fetch completes last, so the claim predicts "a";
the aggregation nevertheless yields "b", the value of the last spec in the
input list, because the unbounded forEach collects results positionally. -/
theorem claim_C3_counterexample :
    mapGet (fromSecretManagerMapPar
      (fun n => if n = "n1" then Except.ok "a"
        else if n = "n2" then Except.ok "b" else Except.error FetchError.notFound)
      [] [SecretInput.obj "n1" "k", SecretInput.obj "n2" "k"] [1, 0]) "k" = some "b"
    ∧ (some "b" : Option String) ≠ some "a" := by
  refine ⟨by decide, by decide⟩

/-- Claim C3 amended: when two distinct specs map to the same configKey,
the outcome kept is that of the spec occurring last in the input list, and
the result is deterministic: the fetch completion order has no influence,
because results are collected positionally by input index. -/
theorem claim_C3_amended_last_input_spec_wins (store : Store) (seed : JsMap)
    (secrets : List SecretInput) (order : List Nat)
    (hcov : ∀ j, j < secrets.length → j ∈ order) :
    fromSecretManagerMapPar store seed secrets order = fromSecretManagerMap store seed secrets
    ∧ ∀ k, mapGet (fromSecretManagerMap store seed secrets) k
        = match Option.join (lastLookup (fetchOutcomes store secrets) k) with
          | some v => some v
          | none => mapGet seed k :=
  ⟨fromSecretManagerMapPar_eq store seed secrets order hcov,
    fun k => mapGet_fromSecretManagerMap store seed secrets k⟩

/-- Claim C3 amended witness: on the duplicate-key input, both completion
orders produce the map keeping the last input spec's value. -/
theorem claim_C3_witness :
    fromSecretManagerMapPar
      (fun n => if n = "n1" then Except.ok "a"
        else if n = "n2" then Except.ok "b" else Except.error FetchError.notFound)
      [] [SecretInput.obj "n1" "k", SecretInput.obj "n2" "k"] [0, 1]
    = fromSecretManagerMap
      (fun n => if n = "n1" then Except.ok "a"
        else if n = "n2" then Except.ok "b" else Except.error FetchError.notFound)
      [] [SecretInput.obj "n1" "k", SecretInput.obj "n2" "k"] :=
  (claim_C3_amended_last_input_spec_wins _ _ _ [0, 1]
    (by
      intro j hj
      have hj2 : j < 2 := by simpa using hj
      interval_cases j
      · simp
      · simp)).1

/-- Claim C4: a key present in the secret-derived map always resolves to
its secret value through either fallback composition, never to the fallback
source's value, because the secret source is tried first and the order is
fixed at composition time. -/
theorem claim_C4_fallback_never_shadows_secret (store : Store) (seed : JsMap)
    (secrets : List SecretInput) (env json : String → Option String) (k a : String)
    (h : mapGet (fromSecretManagerMap store seed secrets) k = some a) :
    layerGcpWithEnvFallback store seed secrets env k = Except.ok a
    ∧ layerGcpWithJsonFallback store seed secrets json k = Except.ok a := by
  unfold layerGcpWithEnvFallback layerGcpWithJsonFallback configOrElse fromSecretManager
    configFromMap
  rw [h]
  exact ⟨rfl, rfl⟩

/-- Claim C4 witness: the secret map binds K to A while both fallback
sources bind every key to B; lookups of K return A. -/
theorem claim_C4_witness :
    layerGcpWithEnvFallback
      (fun n => if n = "K" then Except.ok "A" else Except.error FetchError.notFound)
      [] [SecretInput.str "K"] (fun _ => some "B") "K" = Except.ok "A"
    ∧ layerGcpWithJsonFallback
      (fun n => if n = "K" then Except.ok "A" else Except.error FetchError.notFound)
      [] [SecretInput.str "K"] (fun _ => some "B") "K" = Except.ok "A" :=
  claim_C4_fallback_never_shadows_secret
    (fun n => if n = "K" then Except.ok "A" else Except.error FetchError.notFound)
    [] [SecretInput.str "K"] (fun _ => some "B") (fun _ => some "B") "K" "A" (by decide)

/-- Claim C5: for a key absent from the secret-derived map, the
env-fallback lookup returns the environment value when the variable is set
and reports missing data when it is absent from both sources. -/
theorem claim_C5_env_fallback_lookup (store : Store) (seed : JsMap)
    (secrets : List SecretInput) (env : String → Option String) (k : String)
    (habs : mapGet (fromSecretManagerMap store seed secrets) k = none) :
    (∀ v, env k = some v → layerGcpWithEnvFallback store seed secrets env k = Except.ok v)
    ∧ (env k = none →
      layerGcpWithEnvFallback store seed secrets env k
        = Except.error (ConfigError.missingData k)) := by
  constructor
  · intro v hv
    unfold layerGcpWithEnvFallback configOrElse fromSecretManager configFromMap configFromEnv
    rw [habs, hv]
  · intro hv
    unfold layerGcpWithEnvFallback configOrElse fromSecretManager configFromMap configFromEnv
    rw [habs, hv]

/-- Claim C5 witness: the fetch of E fails, the environment binds E;
lookup of E falls through to the environment, and a key absent everywhere
reports missing data. -/
theorem claim_C5_witness :
    layerGcpWithEnvFallback (fun _ => Except.error FetchError.notFound) []
      [SecretInput.str "E"] (fun k => if k = "E" then some "envv" else none) "E"
      = Except.ok "envv"
    ∧ layerGcpWithEnvFallback (fun _ => Except.error FetchError.notFound) []
      [SecretInput.str "E"] (fun k => if k = "E" then some "envv" else none) "ABSENT"
      = Except.error (ConfigError.missingData "ABSENT") :=
  ⟨(claim_C5_env_fallback_lookup (fun _ => Except.error FetchError.notFound) []
      [SecretInput.str "E"] (fun k => if k = "E" then some "envv" else none) "E"
      (by decide)).1 "envv" (by decide),
    (claim_C5_env_fallback_lookup (fun _ => Except.error FetchError.notFound) []
      [SecretInput.str "E"] (fun k => if k = "E" then some "envv" else none) "ABSENT"
      (by decide)).2 (by decide)⟩

/-- Claim C6: the secrets-only provider resolves a key in the aggregated
map to exactly its map value and reports missing data for any other key,
with no fallback. -/
theorem claim_C6_secrets_only_lookup (store : Store) (seed : JsMap)
    (secrets : List SecretInput) (k : String) :
    (∀ v, mapGet (fromSecretManagerMap store seed secrets) k = some v →
      layerGcp store seed secrets k = Except.ok v)
    ∧ (mapGet (fromSecretManagerMap store seed secrets) k = none →
      layerGcp store seed secrets k = Except.error (ConfigError.missingData k)) := by
  constructor
  · intro v hv
    unfold layerGcp fromSecretManager configFromMap
    rw [hv]
  · intro hv
    unfold layerGcp fromSecretManager configFromMap
    rw [hv]

/-- Claim C6 witness: the DB_PASSWORD scenario of the spec, plus a key
absent from the map reporting missing data. -/
theorem claim_C6_witness :
    layerGcp
      (fun n => if n = "DB_PASSWORD" then Except.ok "s3cr3t" else Except.error FetchError.notFound)
      [] [SecretInput.str "DB_PASSWORD"] "DB_PASSWORD" = Except.ok "s3cr3t"
    ∧ layerGcp
      (fun n => if n = "DB_PASSWORD" then Except.ok "s3cr3t" else Except.error FetchError.notFound)
      [] [SecretInput.str "DB_PASSWORD"] "OTHER" = Except.error (ConfigError.missingData "OTHER") :=
  ⟨(claim_C6_secrets_only_lookup
      (fun n => if n = "DB_PASSWORD" then Except.ok "s3cr3t" else Except.error FetchError.notFound)
      [] [SecretInput.str "DB_PASSWORD"] "DB_PASSWORD").1 "s3cr3t" (by decide),
    (claim_C6_secrets_only_lookup
      (fun n => if n = "DB_PASSWORD" then Except.ok "s3cr3t" else Except.error FetchError.notFound)
      [] [SecretInput.str "DB_PASSWORD"] "OTHER").2 (by decide)⟩

/-- Claim C7: a pair spec fetches by its external secret name and stores
the value under its configKey (the external name itself does not appear as
a key), while a bare-name spec uses the single name as both the external
identifier and the configuration key. -/
theorem claim_C7_spec_renaming (store : Store) (n c v : String) (hnc : n ≠ c)
    (hv : store n = Except.ok v) :
    nameInSecretManager (SecretInput.obj n c) = n
    ∧ nameInConfig (SecretInput.obj n c) = c
    ∧ mapGet (fromSecretManagerMap store [] [SecretInput.obj n c]) c = some v
    ∧ mapGet (fromSecretManagerMap store [] [SecretInput.obj n c]) n = none
    ∧ (∀ s w, store s = Except.ok w →
      mapGet (fromSecretManagerMap store [] [SecretInput.str s]) s = some w) := by
  refine ⟨rfl, rfl, ?_, ?_, ?_⟩
  · rw [mapGet_fromSecretManagerMap]
    simp [fetchOutcomes, fetchOutcome, nameInConfig, nameInSecretManager, lastLookup,
      effectOption, hv, Option.join]
  · rw [mapGet_fromSecretManagerMap]
    simp [fetchOutcomes, fetchOutcome, nameInConfig, nameInSecretManager, lastLookup,
      hnc, mapGet, alistLookup, Option.join]
  · intro s w hw
    rw [mapGet_fromSecretManagerMap]
    simp [fetchOutcomes, fetchOutcome, nameInConfig, nameInSecretManager, lastLookup,
      effectOption, hw, Option.join]

/-- Claim C7 witness: the spec's renaming scenario, with the store holding
"api-key" = "xyz" and the map binding API_KEY. -/
theorem claim_C7_witness :
    mapGet (fromSecretManagerMap
      (fun m => if m = "api-key" then Except.ok "xyz" else Except.error FetchError.notFound)
      [] [SecretInput.obj "api-key" "API_KEY"]) "API_KEY" = some "xyz" :=
  (claim_C7_spec_renaming
    (fun m => if m = "api-key" then Except.ok "xyz" else Except.error FetchError.notFound)
    "api-key" "API_KEY" "xyz" (by decide) (by rfl)).2.2.1

/-- Claim C8 counterexample: given an empty secrets list at runtime, the
implementation does not validate and does not fail with a configuration
error; the aggregation proceeds and returns the seed-map-only provider. -/
theorem claim_C8_counterexample :
    fromSecretManagerMap (fun _ => Except.error FetchError.notFound) [("a", "1")] []
      = [("a", "1")]
    ∧ fromSecretManager (fun _ => Except.error FetchError.notFound) [("a", "1")] [] "a"
      = Except.ok "1" := by
  refine ⟨rfl, rfl⟩

/-- Claim C8 amended: the non-emptiness requirement exists only at the
type level; at runtime no validation occurs and no error is raised: for an
empty secrets list the aggregation proceeds, yielding the seed map and the
seed-map-only provider. -/
theorem claim_C8_amended_empty_list_proceeds (store : Store) (seed : JsMap) :
    fromSecretManagerMap store seed [] = seed
    ∧ ∀ k, fromSecretManager store seed [] k = configFromMap seed k :=
  ⟨rfl, fun _ => rfl⟩

/-- Claim C9: every run of the scoped layer performs the client's close
operation exactly once when the scope ends, on both the success and the
error exit path, for an arbitrary body and for the aggregation body in
particular. -/
theorem claim_C9_client_closed_exactly_once {ε α : Type} (store : Store)
    (body : Store → Except ε α) (seed : JsMap) (secrets : List SecretInput) :
    (runScopedLayer body store).2.events.count ClientEvent.close = 1
    ∧ (layerGcpScoped store seed secrets).2.events.count ClientEvent.close = 1 := by
  constructor
  · unfold runScopedLayer
    cases body store <;> rfl
  · unfold layerGcpScoped runScopedLayer
    rfl

/-- Claim C10: the reduce step mutates the seed map obtained from the
SecretMap reference in place and the provider wraps that same map: after
aggregation the reference holds the merged map, the provider's lookups read
it, and it contains every fetched entry. -/
theorem claim_C10_seed_map_mutation (store : Store) (st : SecretMapRef)
    (secrets : List SecretInput) :
    (fromSecretManagerRef store st secrets).2.contents
      = fromSecretManagerMap store st.contents secrets
    ∧ (∀ k, (fromSecretManagerRef store st secrets).1 k
      = configFromMap (fromSecretManagerRef store st secrets).2.contents k)
    ∧ (∀ k v, alistLookup (hmCompact (hmFromIterable (fetchOutcomes store secrets))) k = some v →
      mapGet (fromSecretManagerRef store st secrets).2.contents k = some v) := by
  refine ⟨rfl, fun _ => rfl, ?_⟩
  intro k v hkv
  show mapGet (hmReduce (hmCompact (hmFromIterable (fetchOutcomes store secrets)))
    st.contents (fun m v k => mapSet m k v)) k = some v
  rw [mapGet_hmReduce_mapSet _ _ _ (keysNodup_hmCompact _ (keysNodup_hmFromIterable _)), hkv]

/-- Claim C10 witness: after aggregating one successful fetch, the seed
map object holds the fetched entry and is no longer its original value. -/
theorem claim_C10_witness :
    mapGet (fromSecretManagerRef
      (fun m => if m = "n1" then Except.ok "newvalue" else Except.error FetchError.notFound)
      (SecretMapRef.mk [("k0", "old")]) [SecretInput.str "n1"]).2.contents "n1"
      = some "newvalue"
    ∧ (fromSecretManagerRef
      (fun m => if m = "n1" then Except.ok "newvalue" else Except.error FetchError.notFound)
      (SecretMapRef.mk [("k0", "old")]) [SecretInput.str "n1"]).2.contents
      ≠ [("k0", "old")] :=
  ⟨(claim_C10_seed_map_mutation
      (fun m => if m = "n1" then Except.ok "newvalue" else Except.error FetchError.notFound)
      (SecretMapRef.mk [("k0", "old")]) [SecretInput.str "n1"]).2.2 "n1" "newvalue"
      (by decide),
    by decide⟩

end SecretManagerConfigProvider
